import Mathlib

/-!
# Verification of `src/services/translation_service.py`

A shallow embedding of the chapter-translation service: the chunking
translator `_translate_with_google`, the fingerprint-validated cache
(`get_cached_translation` / `translate_chapter`), the preference store and
`get_cache_stats`.  Text is modelled as `List Char` (Python `str` is a
sequence of code points), timestamps as `Nat`, Python `dict` as an
insertion-ordered association list, and the external collaborators
(`hashlib.md5` hexdigest and the `GoogleTranslator` provider) as opaque
function parameters; a provider call that raises is modelled by `Option`
(`none` = exception).
-/

set_option autoImplicit false

namespace TranslationService

/-- Modelled from the spec: the `SupportedLanguage` enum lives in
`models/translation.py`, which is not part of the sources; the spec fixes it
as the closed enumeration {English, Urdu} with string values used in cache
keys (`language.value`). -/
inductive SupportedLanguage where
  | english
  | urdu
deriving DecidableEq, Repr

/-- The `language.value` as used in `_get_cache_key` and the `:urdu` suffix test
of `get_cache_stats`. -/
def langValue : SupportedLanguage → String
  | SupportedLanguage.english => "english"
  | SupportedLanguage.urdu => "urdu"

/-- The `lang_code = "ur" if target_language == SupportedLanguage.URDU else "en"`
from `_translate_with_google`.  Note the mapping is total: every language
receives a provider code, the `else` branch falling back to `"en"`. -/
def langCode (target : SupportedLanguage) : String :=
  if target = SupportedLanguage.urdu then "ur" else "en"

/-! ## Python text primitives -/

/-- Characters removed by Python `str.strip()` (ASCII whitespace). -/
def pyIsSpace (c : Char) : Bool :=
  c = ' ' || c = '\t' || c = '\n' || c = '\x0d' || c = '\x0b' || c = '\x0c'

/-- Left part of Python `str.strip()`. -/
def lstrip (s : List Char) : List Char := s.dropWhile pyIsSpace

/-- Right part of Python `str.strip()`. -/
def rstrip (s : List Char) : List Char := (s.reverse.dropWhile pyIsSpace).reverse

/-- Python `str.strip()`. -/
def strip (s : List Char) : List Char := rstrip (lstrip s)

/-- The paragraph separator `"\n\n"`. -/
def sep : List Char := ['\n', '\n']

/-- Python `content.split('\n\n')`: greedy left-to-right split on
non-overlapping occurrences of the separator; always returns at least one
(possibly empty) piece. -/
def splitPar : List Char → List (List Char)
  | [] => [[]]
  | '\n' :: '\n' :: rest => [] :: splitPar rest
  | c :: rest =>
    match splitPar rest with
    | [] => [[c]]
    | p :: ps => (c :: p) :: ps

/-- Python `"\n\n".join(parts)`. -/
def joinSep : List (List Char) → List Char
  | [] => []
  | [p] => p
  | p :: ps => p ++ sep ++ joinSep ps

/-! ## The chunking translator -/

/-- The `max_chunk_size = 4500` from `_translate_with_google`. -/
def maxChunkSize : Nat := 4500

/-- One iteration of the greedy paragraph loop of `_translate_with_google`:
the accumulator is `(translated_parts-as-source-chunks, current_chunk)`.
If the paragraph still fits (`len(current_chunk) + len(para) + 2 <=
max_chunk_size`) it is appended to the buffer followed by the separator;
otherwise the buffer is flushed (skipped when it strips to empty) and a new
buffer is started from the paragraph. -/
def chunkStep (maxC : Nat) (acc : List (List Char) × List Char) (para : List Char) :
    List (List Char) × List Char :=
  if acc.2.length + para.length + 2 ≤ maxC then
    (acc.1, acc.2 ++ (para ++ sep))
  else
    ((if strip acc.2 = [] then acc.1 else acc.1 ++ [strip acc.2]), para ++ sep)

/-- The list of (stripped) chunk texts handed to the provider by the long
branch of `_translate_with_google`, in call order: the greedy loop over the
paragraphs followed by the final flush of the remaining buffer. -/
def buildChunks (maxC : Nat) (paras : List (List Char)) : List (List Char) :=
  let acc := paras.foldl (chunkStep maxC) ([], [])
  if strip acc.2 = [] then acc.1 else acc.1 ++ [strip acc.2]

/-- Calling the provider once per chunk, in order; `none` models a raised
exception, which aborts the whole operation. -/
def mapTranslate (tr : List Char → Option (List Char)) :
    List (List Char) → Option (List (List Char))
  | [] => some []
  | c :: cs =>
    match tr c with
    | none => none
    | some t => (mapTranslate tr cs).map (fun ts => t :: ts)

/-- The `_translate_with_google(content, target_language)` with the provider
abstracted as `tr`.  English returns the content unchanged before the
provider is ever consulted; short content (`≤ max_chunk_size`) is a single
provider call; long content is split on `"\n\n"`, chunked greedily and the
translated chunks are rejoined with `"\n\n"`.  `none` models the
`RuntimeError("Translation failed: ...")` raised on provider failure. -/
def translateWithGoogle (tr : List Char → Option (List Char)) (content : List Char)
    (target : SupportedLanguage) : Option (List Char) :=
  if target = SupportedLanguage.english then
    some content
  else if content.length ≤ maxChunkSize then
    tr content
  else
    (mapTranslate tr (buildChunks maxChunkSize (splitPar content))).map joinSep

/-- The texts passed to `translator.translate` by `_translate_with_google`,
in call order (empty for the English no-op branch, the whole content for the
single-call branch, the chunk list for the long branch). -/
def providerCallTexts (content : List Char) (target : SupportedLanguage) :
    List (List Char) :=
  if target = SupportedLanguage.english then []
  else if content.length ≤ maxChunkSize then [content]
  else buildChunks maxChunkSize (splitPar content)

/-! ## Data model -/

/-- The `ChapterTranslation` (pydantic model, fields as used by the service). -/
structure ChapterTranslation where
  chapter_id : String
  language : SupportedLanguage
  original_content_hash : String
  translated_content : List Char
  created_at : Nat
  updated_at : Nat
deriving DecidableEq, Repr

/-- The `TranslationResponse` (fields as constructed by `translate_chapter`). -/
structure TranslationResponse where
  chapter_id : String
  language : SupportedLanguage
  translated_content : List Char
  cached : Bool
  translated_at : Nat
deriving DecidableEq, Repr

/-- The `UserTranslationPreference` (fields as constructed by
`set_user_preference`). -/
structure UserTranslationPreference where
  session_id : String
  chapter_id : String
  preferred_language : SupportedLanguage
  updated_at : Nat
deriving DecidableEq, Repr

/-! ## Python dict as an insertion-ordered association list -/

/-- The `d.get(k)` / `d[k]`: first binding of the key. -/
def dictGet {α : Type} : List (String × α) → String → Option α
  | [], _ => none
  | (k', v') :: rest, k => if k' = k then some v' else dictGet rest k

/-- The `d[k] = v`: update in place if the key is present (Python dicts keep the
original insertion position on update), else append. -/
def dictSet {α : Type} : List (String × α) → String → α → List (String × α)
  | [], k, v => [(k, v)]
  | (k', v') :: rest, k, v =>
    if k' = k then (k', v) :: rest else (k', v') :: dictSet rest k v

/-- The `del d[k]`: remove the (first) binding of the key. -/
def dictDel {α : Type} : List (String × α) → String → List (String × α)
  | [], _ => []
  | (k', v') :: rest, k => if k' = k then rest else (k', v') :: dictDel rest k

/-! ## The service -/

/-- The two in-memory stores of `TranslationService`. -/
structure ServiceState where
  cache : List (String × ChapterTranslation)
  prefs : List (String × UserTranslationPreference)
deriving DecidableEq, Repr

/-- The state built by `TranslationService.__init__`: both dicts empty. -/
def emptyService : ServiceState := ⟨[], []⟩

/-- The `_get_cache_key(chapter_id, language) = f"{chapter_id}:{language.value}"`. -/
def getCacheKey (chapterId : String) (language : SupportedLanguage) : String :=
  chapterId ++ ":" ++ langValue language

/-- The `get_cached_translation(chapter_id, language, content_hash)`: returns the
looked-up entry and the possibly mutated state.  Mirrors the Python
truthiness test `if content_hash and cached.original_content_hash !=
content_hash` (an absent or empty hash skips the freshness check). -/
def getCachedTranslation (st : ServiceState) (chapterId : String)
    (language : SupportedLanguage) (contentHash : Option String) :
    Option ChapterTranslation × ServiceState :=
  let cacheKey := getCacheKey chapterId language
  match dictGet st.cache cacheKey with
  | some cached =>
    match contentHash with
    | some h =>
      if h ≠ "" ∧ cached.original_content_hash ≠ h then
        (none, ⟨dictDel st.cache cacheKey, st.prefs⟩)
      else
        (some cached, st)
    | none => (some cached, st)
  | none => (none, st)

/-- The `translate_chapter(chapter_id, content, target_language)` with the
fingerprinter `md5hex` and the provider `tr` abstracted, and `now` standing
for `datetime.utcnow()`.  The first component is the `TranslationResponse`
(`none` models the provider's `RuntimeError` propagating to the caller), the
second the state after the call — including the eviction possibly performed
by the cache lookup.  The wall-clock latency of the source is diagnostic
only and is not modelled. -/
def translateChapter (md5hex : List Char → String) (tr : List Char → Option (List Char))
    (st : ServiceState) (now : Nat) (chapterId : String) (content : List Char)
    (targetLanguage : SupportedLanguage) : Option TranslationResponse × ServiceState :=
  let contentHash := md5hex content
  match getCachedTranslation st chapterId targetLanguage (some contentHash) with
  | (some cached, st1) =>
    (some ⟨chapterId, targetLanguage, cached.translated_content, true, cached.updated_at⟩, st1)
  | (none, st1) =>
    match translateWithGoogle tr content targetLanguage with
    | none => (none, st1)
    | some translatedContent =>
      let translation : ChapterTranslation :=
        ⟨chapterId, targetLanguage, contentHash, translatedContent, now, now⟩
      (some ⟨chapterId, targetLanguage, translatedContent, false, now⟩,
       ⟨dictSet st1.cache (getCacheKey chapterId targetLanguage) translation, st1.prefs⟩)

/-- The `set_user_preference(session_id, chapter_id, language)`; `now` stands for
`datetime.utcnow()`. -/
def setUserPreference (st : ServiceState) (now : Nat) (sessionId chapterId : String)
    (language : SupportedLanguage) : UserTranslationPreference × ServiceState :=
  let preference : UserTranslationPreference := ⟨sessionId, chapterId, language, now⟩
  (preference, ⟨st.cache, dictSet st.prefs (sessionId ++ ":" ++ chapterId) preference⟩)

/-- The `get_user_preference(session_id, chapter_id)`. -/
def getUserPreference (st : ServiceState) (sessionId chapterId : String) :
    Option UserTranslationPreference :=
  dictGet st.prefs (sessionId ++ ":" ++ chapterId)

/-- Python `k.split(":")[0]`: the characters before the first colon. -/
def pySplitHead (s : String) : String :=
  ⟨s.data.takeWhile (fun c => c ≠ ':')⟩

/-- Python `k.endswith(":urdu")`. -/
def pyEndsWith (s suffix : String) : Bool :=
  suffix.data.isSuffixOf s.data

/-- The dictionary returned by `get_cache_stats`. -/
structure CacheStats where
  cached_translations : Nat
  user_preferences : Nat
  chapters_with_urdu : List String
deriving DecidableEq, Repr

/-- The `get_cache_stats()`: sizes of the two stores and, for every cache key
ending in `":urdu"`, the part of the key before its first `":"`. -/
def getCacheStats (st : ServiceState) : CacheStats :=
  ⟨st.cache.length, st.prefs.length,
   ((st.cache.map Prod.fst).filter (fun k => pyEndsWith k ":urdu")).map pySplitHead⟩

end TranslationService

namespace TranslationService

/-! ## Lemmas about `splitPar` -/

theorem splitPar_nil : splitPar [] = [[]] := rfl

theorem splitPar_sep_cons (rest : List Char) :
    splitPar ('\n' :: '\n' :: rest) = [] :: splitPar rest := rfl

theorem splitPar_ne_nil (s : List Char) : splitPar s ≠ [] := by
  induction s using splitPar.induct <;> simp_all [splitPar]

theorem splitPar_cons (c : Char) (rest : List Char)
    (h : ¬(c = '\n' ∧ rest.head? = some '\n')) (p : List Char) (ps : List (List Char))
    (hp : splitPar rest = p :: ps) : splitPar (c :: rest) = (c :: p) :: ps := by
  rw [splitPar.eq_def]
  split
  · simp_all
  · rename_i heq
    exfalso
    cases heq
    exact h ⟨rfl, rfl⟩
  · rename_i c' rest' hne heq
    injection heq with h1 h2
    subst h1
    subst h2
    rw [hp]

/-- The first piece of a split is empty or starts with the first character of
the split text. -/
theorem splitPar_head_cases (s : List Char) (p : List Char) (ps : List (List Char))
    (h : splitPar s = p :: ps) : p = [] ∨ p.head? = s.head? := by
  cases s with
  | nil =>
    rw [splitPar_nil] at h
    injection h with h1 _
    exact Or.inl h1.symm
  | cons c rest =>
    by_cases hg : c = '\n' ∧ rest.head? = some '\n'
    · obtain ⟨hc, hr⟩ := hg
      cases rest with
      | nil => simp at hr
      | cons d rs =>
        simp only [List.head?_cons, Option.some.injEq] at hr
        subst hc
        subst hr
        rw [splitPar_sep_cons] at h
        injection h with h1 _
        exact Or.inl h1.symm
    · obtain ⟨q, qs, hq⟩ : ∃ q qs, splitPar rest = q :: qs := by
        cases hsp : splitPar rest with
        | nil => exact absurd hsp (splitPar_ne_nil rest)
        | cons q qs => exact ⟨q, qs, rfl⟩
      rw [splitPar_cons c rest hg q qs hq] at h
      injection h with h1 _
      subst h1
      simp

/-- Every piece produced by `splitPar` splits to itself: it contains no
`"\n\n"`. -/
theorem splitPar_piece_self (s : List Char) : ∀ p ∈ splitPar s, splitPar p = [p] := by
  induction s using splitPar.induct with
  | case1 =>
    intro p hp
    rw [splitPar_nil] at hp
    simp only [List.mem_singleton] at hp
    subst hp
    exact splitPar_nil
  | case2 rest ih =>
    intro p hp
    rw [splitPar_sep_cons] at hp
    rcases List.mem_cons.mp hp with h | h
    · subst h
      exact splitPar_nil
    · exact ih p h
  | case3 c rest hne hrest ih =>
    exact absurd hrest (splitPar_ne_nil rest)
  | case4 c rest hne p0 ps0 hrest ih =>
    intro p hp
    have hguard : ¬(c = '\n' ∧ rest.head? = some '\n') := by
      rintro ⟨hc, hr⟩
      cases rest with
      | nil => simp at hr
      | cons d rs =>
        simp only [List.head?_cons, Option.some.injEq] at hr
        exact hne rs hc (by rw [hr])
    rw [splitPar_cons c rest hguard p0 ps0 hrest] at hp
    rcases List.mem_cons.mp hp with h | h
    · subst h
      have hp0 : splitPar p0 = [p0] := ih p0 (by rw [hrest]; simp)
      have hguard0 : ¬(c = '\n' ∧ p0.head? = some '\n') := by
        rcases splitPar_head_cases rest p0 ps0 hrest with h0 | h0
        · subst h0
          simp
        · rw [h0]
          exact hguard
      exact splitPar_cons c p0 hguard0 p0 [] hp0
    · exact ih p (by rw [hrest]; exact List.mem_cons_of_mem _ h)

/-- Splitting distributes over a separator placed after a text that does not
end in a newline. -/
theorem splitPar_append_sep (b : List Char) :
    ∀ (a : List Char), a.getLast? ≠ some '\n' →
      splitPar (a ++ '\n' :: '\n' :: b) = splitPar a ++ splitPar b := by
  intro a
  induction a using splitPar.induct with
  | case1 =>
    intro _
    rw [List.nil_append, splitPar_sep_cons, splitPar_nil]
    rfl
  | case2 rest ih =>
    intro hlast
    have hlast' : rest.getLast? ≠ some '\n' := by
      cases rest with
      | nil => simp at hlast
      | cons x xs => simpa [List.getLast?_cons_cons] using hlast
    simp only [List.cons_append]
    rw [splitPar_sep_cons, splitPar_sep_cons, ih hlast', List.cons_append]
  | case3 c rest hne hrest ih =>
    exact absurd hrest (splitPar_ne_nil rest)
  | case4 c rest hne p ps hrest ih =>
    intro hlast
    have hlast' : rest.getLast? ≠ some '\n' := by
      cases rest with
      | nil => simp
      | cons x xs => simpa [List.getLast?_cons_cons] using hlast
    have hguard : ¬(c = '\n' ∧ rest.head? = some '\n') := by
      rintro ⟨hc, hr⟩
      cases rest with
      | nil => simp at hr
      | cons d rs =>
        simp only [List.head?_cons, Option.some.injEq] at hr
        exact hne rs hc (by rw [hr])
    have hguard' : ¬(c = '\n' ∧ (rest ++ '\n' :: '\n' :: b).head? = some '\n') := by
      rintro ⟨hc, hr⟩
      cases rest with
      | nil =>
        subst hc
        simp at hlast
      | cons d rs =>
        simp only [List.cons_append, List.head?_cons, Option.some.injEq] at hr
        exact hne rs hc (by rw [hr])
    rw [List.cons_append]
    rw [splitPar_cons c rest hguard p ps hrest]
    have hrec := ih hlast'
    rw [hrest] at hrec
    rw [splitPar_cons c (rest ++ '\n' :: '\n' :: b) hguard' p (ps ++ splitPar b) hrec]
    simp

end TranslationService

namespace TranslationService

/-! ## Lemmas about `strip` -/

theorem strip_nil : strip [] = [] := rfl

theorem lstrip_length_le (s : List Char) : (lstrip s).length ≤ s.length :=
  (List.dropWhile_sublist pyIsSpace).length_le

theorem rstrip_length_le (s : List Char) : (rstrip s).length ≤ s.length := by
  have h := (List.dropWhile_sublist (l := s.reverse) pyIsSpace).length_le
  simpa [rstrip] using h

theorem lstrip_eq_self_of_strip (p : List Char) (h : strip p = p) : lstrip p = p := by
  have h1 : p.length ≤ (lstrip p).length := by
    conv_lhs => rw [← h]
    exact rstrip_length_le (lstrip p)
  exact (List.dropWhile_sublist pyIsSpace).eq_of_length
    (le_antisymm (lstrip_length_le p) h1)

theorem rstrip_eq_self_of_strip (p : List Char) (h : strip p = p) : rstrip p = p := by
  have hl := lstrip_eq_self_of_strip p h
  rw [strip, hl] at h
  exact h

/-- A nonempty string equal to its own `strip` starts with a non-whitespace
character. -/
theorem strip_head (p : List Char) (h : strip p = p) (hne : p ≠ []) :
    ∃ c p', p = c :: p' ∧ pyIsSpace c = false := by
  have hl := lstrip_eq_self_of_strip p h
  cases p with
  | nil => exact absurd rfl hne
  | cons c p' =>
    refine ⟨c, p', rfl, ?_⟩
    cases hsp : pyIsSpace c with
    | false => rfl
    | true =>
      exfalso
      have hlen := congrArg List.length hl
      simp only [lstrip, List.dropWhile_cons, hsp, if_true, List.length_cons] at hlen
      have := lstrip_length_le p'
      simp only [lstrip] at this
      omega

/-- A nonempty string equal to its own `strip` ends with a non-whitespace
character. -/
theorem strip_last (p : List Char) (h : strip p = p) (hne : p ≠ []) :
    ∃ d, p.getLast? = some d ∧ pyIsSpace d = false := by
  have hr := rstrip_eq_self_of_strip p h
  have hrev : p.reverse.dropWhile pyIsSpace = p.reverse := by
    rw [← List.reverse_inj]
    simpa [rstrip] using hr
  cases hd : p.reverse with
  | nil =>
    exfalso
    exact hne (by simpa using congrArg List.reverse hd)
  | cons d t =>
    refine ⟨d, ?_, ?_⟩
    · rw [← List.head?_reverse, hd]
      rfl
    · cases hsp : pyIsSpace d with
      | false => rfl
      | true =>
        exfalso
        rw [hd] at hrev
        have hlen := congrArg List.length hrev
        simp only [List.dropWhile_cons, hsp, if_true, List.length_cons] at hlen
        have := (List.dropWhile_sublist (l := t) pyIsSpace).length_le
        omega

/-! ## Lemmas about `joinSep` -/

theorem joinSep_nil : joinSep [] = [] := rfl

theorem joinSep_single (p : List Char) : joinSep [p] = p := rfl

theorem joinSep_cons (p : List Char) (ps : List (List Char)) (h : ps ≠ []) :
    joinSep (p :: ps) = p ++ sep ++ joinSep ps := by
  cases ps with
  | nil => exact absurd rfl h
  | cons q ps' => rfl

theorem joinSep_ne_nil (g : List (List Char)) (hne : g ≠ [])
    (h : ∀ p ∈ g, p ≠ []) : joinSep g ≠ [] := by
  cases g with
  | nil => exact absurd rfl hne
  | cons p ps =>
    cases ps with
    | nil =>
      rw [joinSep_single]
      exact h p (by simp)
    | cons q ps' =>
      rw [joinSep_cons p (q :: ps') (by simp)]
      have hp := h p (by simp)
      simp [hp]

theorem joinSep_head?_not_space (g : List (List Char))
    (h : ∀ p ∈ g, ∃ c p', p = c :: p' ∧ pyIsSpace c = false) (hne : g ≠ []) :
    ∃ c, (joinSep g).head? = some c ∧ pyIsSpace c = false := by
  cases g with
  | nil => exact absurd rfl hne
  | cons p ps =>
    obtain ⟨c, p', hp, hc⟩ := h p (by simp)
    cases ps with
    | nil =>
      rw [joinSep_single, hp]
      exact ⟨c, rfl, hc⟩
    | cons q ps' =>
      rw [joinSep_cons p (q :: ps') (by simp), hp]
      exact ⟨c, rfl, hc⟩

theorem joinSep_getLast?_not_space (g : List (List Char))
    (h : ∀ p ∈ g, ∃ d, p.getLast? = some d ∧ pyIsSpace d = false) (hne : g ≠ []) :
    ∃ d, (joinSep g).getLast? = some d ∧ pyIsSpace d = false := by
  induction g with
  | nil => exact absurd rfl hne
  | cons p ps ih =>
    cases ps with
    | nil =>
      rw [joinSep_single]
      exact h p (by simp)
    | cons q ps' =>
      obtain ⟨d, hd, hds⟩ := ih (fun x hx => h x (List.mem_cons_of_mem _ hx)) (by simp)
      refine ⟨d, ?_, hds⟩
      rw [joinSep_cons p (q :: ps') (by simp), List.getLast?_append, hd]
      rfl

end TranslationService

namespace TranslationService

/-- The text accumulated in `current_chunk` after the paragraphs `g` have
been added: each paragraph followed by the separator. -/
def flatSep (g : List (List Char)) : List Char :=
  (g.map (fun p => p ++ sep)).flatten

theorem flatSep_nil : flatSep [] = [] := rfl

theorem flatSep_single (p : List Char) : flatSep [p] = p ++ sep := by
  simp [flatSep]

theorem flatSep_append_single (g : List (List Char)) (p : List Char) :
    flatSep (g ++ [p]) = flatSep g ++ (p ++ sep) := by
  simp [flatSep]

theorem flatSep_eq_joinSep_append (g : List (List Char)) (h : g ≠ []) :
    flatSep g = joinSep g ++ sep := by
  induction g with
  | nil => exact absurd rfl h
  | cons p ps ih =>
    cases ps with
    | nil => simp [flatSep_single, joinSep_single]
    | cons q ps' =>
      have : flatSep (p :: q :: ps') = (p ++ sep) ++ flatSep (q :: ps') := by
        simp [flatSep]
      rw [this, ih (by simp), joinSep_cons p (q :: ps') (by simp)]
      simp

theorem joinSep_eq_nil_iff (g : List (List Char)) (h : ∀ p ∈ g, p ≠ []) :
    joinSep g = [] ↔ g = [] := by
  constructor
  · intro hj
    by_contra hg
    exact joinSep_ne_nil g hg h hj
  · intro hg
    subst hg
    rfl

/-- Stripping a clean join followed by a trailing separator recovers the
join. -/
theorem strip_joinSep_append_sep (g : List (List Char)) (hne : g ≠ [])
    (hclean : ∀ p ∈ g, p ≠ [] ∧ strip p = p) :
    strip (joinSep g ++ sep) = joinSep g := by
  obtain ⟨c, hc, hcs⟩ := joinSep_head?_not_space g
    (fun p hp => strip_head p (hclean p hp).2 (hclean p hp).1) hne
  obtain ⟨d, hd, hds⟩ := joinSep_getLast?_not_space g
    (fun p hp => strip_last p (hclean p hp).2 (hclean p hp).1) hne
  obtain ⟨J, hJ⟩ : ∃ J, joinSep g = c :: J := by
    cases hj : joinSep g with
    | nil => rw [hj] at hc; simp at hc
    | cons x xs =>
      rw [hj] at hc
      simp only [List.head?_cons, Option.some.injEq] at hc
      exact ⟨xs, by rw [hc]⟩
  have hlstrip : lstrip (joinSep g ++ sep) = joinSep g ++ sep := by
    rw [hJ]
    simp [lstrip, List.dropWhile_cons, hcs]
  have hrstrip : rstrip (joinSep g ++ sep) = joinSep g := by
    unfold rstrip
    have hsep : (joinSep g ++ sep).reverse = '\n' :: '\n' :: (joinSep g).reverse := by
      simp [sep]
    rw [hsep]
    have hnl : pyIsSpace '\n' = true := by decide
    simp only [List.dropWhile_cons, hnl, if_true]
    obtain ⟨R, hR⟩ : ∃ R, (joinSep g).reverse = d :: R := by
      cases hr : (joinSep g).reverse with
      | nil =>
        rw [← List.head?_reverse, hr] at hd
        simp at hd
      | cons x xs =>
        rw [← List.head?_reverse, hr] at hd
        simp only [List.head?_cons, Option.some.injEq] at hd
        exact ⟨xs, by rw [hd]⟩
    rw [hR]
    simp only [List.dropWhile_cons, hds, Bool.false_eq_true, if_false]
    rw [← hR, List.reverse_reverse]
  rw [strip, hlstrip, hrstrip]

theorem strip_flatSep (g : List (List Char))
    (hclean : ∀ p ∈ g, p ≠ [] ∧ strip p = p) :
    strip (flatSep g) = joinSep g := by
  cases g with
  | nil => rfl
  | cons p ps =>
    rw [flatSep_eq_joinSep_append (p :: ps) (by simp)]
    exact strip_joinSep_append_sep (p :: ps) (by simp) hclean

end TranslationService

namespace TranslationService

/-- Invariant of the greedy paragraph loop: the accumulator is always the
image of a partition of the processed paragraphs into nonempty groups —
flushed groups (joined with the separator) and the group still in the
buffer. -/
theorem foldl_chunkStep_spec (maxC : Nat) :
    ∀ (paras : List (List Char)) (groups : List (List (List Char))) (curG : List (List Char)),
    (∀ p ∈ paras, p ≠ [] ∧ strip p = p) →
    (∀ g ∈ groups, g ≠ [] ∧ ∀ p ∈ g, p ≠ [] ∧ strip p = p) →
    (∀ p ∈ curG, p ≠ [] ∧ strip p = p) →
    ∃ (groups' : List (List (List Char))) (curG' : List (List Char)),
      paras.foldl (chunkStep maxC) (groups.map joinSep, flatSep curG)
        = (groups'.map joinSep, flatSep curG') ∧
      groups'.flatten ++ curG' = groups.flatten ++ curG ++ paras ∧
      (∀ g ∈ groups', g ≠ [] ∧ ∀ p ∈ g, p ≠ [] ∧ strip p = p) ∧
      (∀ p ∈ curG', p ≠ [] ∧ strip p = p) := by
  intro paras
  induction paras with
  | nil =>
    intro groups curG _ hg hc
    exact ⟨groups, curG, rfl, by simp, hg, hc⟩
  | cons para rest ih =>
    intro groups curG hp hg hc
    have hpara := hp para (by simp)
    have hrest : ∀ p ∈ rest, p ≠ [] ∧ strip p = p := fun p hm => hp p (by simp [hm])
    rw [List.foldl_cons]
    by_cases hcond : (flatSep curG).length + para.length + 2 ≤ maxC
    · have hstep : chunkStep maxC (groups.map joinSep, flatSep curG) para
          = (groups.map joinSep, flatSep (curG ++ [para])) := by
        simp only [chunkStep, hcond, if_true, flatSep_append_single]
      rw [hstep]
      obtain ⟨groups', curG', heq, hflat, hg', hc'⟩ := ih groups (curG ++ [para]) hrest hg
        (by
          intro p hm
          rcases List.mem_append.mp hm with h | h
          · exact hc p h
          · simp only [List.mem_singleton] at h
            subst h
            exact hpara)
      refine ⟨groups', curG', heq, ?_, hg', hc'⟩
      rw [hflat]
      simp
    · by_cases hnil : curG = []
      · subst hnil
        have hstep : chunkStep maxC (groups.map joinSep, flatSep []) para
            = (groups.map joinSep, flatSep [para]) := by
          simp only [chunkStep]
          rw [if_neg hcond]
          simp [flatSep_nil, strip_nil, flatSep_single]
        rw [hstep]
        obtain ⟨groups', curG', heq, hflat, hg', hc'⟩ := ih groups [para] hrest hg
          (by
            intro p hm
            simp only [List.mem_singleton] at hm
            subst hm
            exact hpara)
        refine ⟨groups', curG', heq, ?_, hg', hc'⟩
        rw [hflat]
        simp
      · have hjoin : strip (flatSep curG) = joinSep curG := strip_flatSep curG hc
        have hjne : joinSep curG ≠ [] :=
          joinSep_ne_nil curG hnil (fun p hm => (hc p hm).1)
        have hstep : chunkStep maxC (groups.map joinSep, flatSep curG) para
            = ((groups ++ [curG]).map joinSep, flatSep [para]) := by
          simp only [chunkStep, hcond, if_false, hjoin, hjne, flatSep_single,
            List.map_append, List.map_cons, List.map_nil]
        rw [hstep]
        obtain ⟨groups', curG', heq, hflat, hg', hc'⟩ := ih (groups ++ [curG]) [para] hrest
          (by
            intro g hm
            rcases List.mem_append.mp hm with h | h
            · exact hg g h
            · simp only [List.mem_singleton] at h
              subst h
              exact ⟨hnil, hc⟩)
          (by
            intro p hm
            simp only [List.mem_singleton] at hm
            subst hm
            exact hpara)
        refine ⟨groups', curG', heq, ?_, hg', hc'⟩
        rw [hflat]
        simp

/-- The chunks built by the long branch are exactly the separator-joins of a
partition of the paragraph list into nonempty, clean groups. -/
theorem buildChunks_spec (maxC : Nat) (paras : List (List Char))
    (hp : ∀ p ∈ paras, p ≠ [] ∧ strip p = p) :
    ∃ (groups : List (List (List Char))), groups.flatten = paras ∧
      (∀ g ∈ groups, g ≠ [] ∧ ∀ p ∈ g, p ≠ [] ∧ strip p = p) ∧
      buildChunks maxC paras = groups.map joinSep := by
  obtain ⟨groups', curG', heq, hflat, hg', hc'⟩ :=
    foldl_chunkStep_spec maxC paras [] [] hp (by simp) (by simp)
  simp only [List.map_nil, flatSep_nil, List.flatten_nil, List.nil_append] at heq hflat
  unfold buildChunks
  rw [heq]
  simp only [strip_flatSep curG' hc']
  by_cases hnil : curG' = []
  · subst hnil
    simp only [joinSep_nil, if_true]
    exact ⟨groups', by simpa using hflat, hg', rfl⟩
  · have hjne : joinSep curG' ≠ [] :=
      joinSep_ne_nil curG' hnil (fun p hm => (hc' p hm).1)
    simp only [hjne, if_false]
    refine ⟨groups' ++ [curG'], ?_, ?_, ?_⟩
    · simpa using hflat
    · intro g hm
      rcases List.mem_append.mp hm with h | h
      · exact hg' g h
      · simp only [List.mem_singleton] at h
        subst h
        exact ⟨hnil, hc'⟩
    · simp

end TranslationService

namespace TranslationService

/-- Splitting a separator-join whose components do not end in a newline
yields the concatenation of the component splits. -/
theorem splitPar_joinSep_flatten (l : List (List Char)) (hne : l ≠ [])
    (hlast : ∀ c ∈ l, c.getLast? ≠ some '\n') :
    splitPar (joinSep l) = (l.map splitPar).flatten := by
  induction l with
  | nil => exact absurd rfl hne
  | cons c l' ih =>
    cases l' with
    | nil => simp [joinSep_single]
    | cons q l'' =>
      rw [joinSep_cons c (q :: l'') (by simp)]
      have hstep : c ++ sep ++ joinSep (q :: l'') = c ++ '\n' :: '\n' :: joinSep (q :: l'') := by
        simp [sep]
      rw [hstep, splitPar_append_sep (joinSep (q :: l'')) c (hlast c (by simp)),
        ih (by simp) (fun x hx => hlast x (List.mem_cons_of_mem _ hx))]
      simp

theorem flatten_map_singleton (g : List (List Char)) :
    (g.map (fun p => [p])).flatten = g := by
  induction g <;> simp_all

/-- Splitting the separator-join of separator-free pieces that do not end in
a newline recovers exactly the pieces. -/
theorem splitPar_joinSep_group (g : List (List Char)) (hne : g ≠ [])
    (hg : ∀ p ∈ g, splitPar p = [p] ∧ p.getLast? ≠ some '\n') :
    splitPar (joinSep g) = g := by
  rw [splitPar_joinSep_flatten g hne (fun p hp => (hg p hp).2)]
  have hmap : g.map splitPar = g.map (fun p => [p]) :=
    List.map_congr_left (fun p hp => (hg p hp).1)
  rw [hmap, flatten_map_singleton]

/-- A translator that never fails and returns its input translates a chunk
list to itself. -/
theorem mapTranslate_some (l : List (List Char)) : mapTranslate some l = some l := by
  induction l with
  | nil => rfl
  | cons c cs ih => simp [mapTranslate, ih]

end TranslationService

namespace TranslationService

theorem ne_some_nl_of_not_space {x : List Char} (d : Char) (hd : x.getLast? = some d)
    (hds : pyIsSpace d = false) : x.getLast? ≠ some '\n' := by
  rw [hd]
  intro hcontra
  injection hcontra with hdc
  subst hdc
  exact absurd hds (by decide)

/-- The long branch of `_translate_with_google`, run with the identity
provider, preserves the exact paragraph list of its input whenever every
input paragraph is nonempty and free of leading and trailing whitespace. -/
theorem translateWithGoogle_long_id (content : List Char) (target : SupportedLanguage)
    (hlang : target ≠ SupportedLanguage.english) (hlong : maxChunkSize < content.length)
    (hclean : ∀ p ∈ splitPar content, p ≠ [] ∧ strip p = p) :
    ∃ out, translateWithGoogle some content target = some out ∧
      splitPar out = splitPar content := by
  obtain ⟨groups, hflat, hg, hchunks⟩ := buildChunks_spec maxChunkSize (splitPar content) hclean
  have hgne : groups ≠ [] := by
    intro h
    subst h
    exact splitPar_ne_nil content (by simpa using hflat.symm)
  have hlast_chunk : ∀ ch ∈ groups.map joinSep, ch.getLast? ≠ some '\n' := by
    intro ch hch
    obtain ⟨g, hgmem, rfl⟩ := List.mem_map.mp hch
    obtain ⟨hne_g, hcg⟩ := hg g hgmem
    obtain ⟨d, hd, hds⟩ := joinSep_getLast?_not_space g
      (fun p hp => strip_last p (hcg p hp).2 (hcg p hp).1) hne_g
    exact ne_some_nl_of_not_space d hd hds
  have hsplit_chunk : ∀ g ∈ groups, splitPar (joinSep g) = g := by
    intro g hgmem
    obtain ⟨hne_g, hcg⟩ := hg g hgmem
    apply splitPar_joinSep_group g hne_g
    intro p hp
    constructor
    · apply splitPar_piece_self content
      rw [← hflat]
      exact List.mem_flatten.mpr ⟨g, hgmem, hp⟩
    · obtain ⟨d, hd, hds⟩ := strip_last p (hcg p hp).2 (hcg p hp).1
      exact ne_some_nl_of_not_space d hd hds
  have htrans : translateWithGoogle some content target
      = some (joinSep (groups.map joinSep)) := by
    unfold translateWithGoogle
    rw [if_neg hlang, if_neg (by omega : ¬content.length ≤ maxChunkSize), hchunks,
      mapTranslate_some]
    rfl
  refine ⟨_, htrans, ?_⟩
  rw [splitPar_joinSep_flatten (groups.map joinSep) (by simpa using hgne) hlast_chunk]
  rw [List.map_map]
  have hcongr : groups.map (splitPar ∘ joinSep) = groups.map (fun g => g) :=
    List.map_congr_left (fun g hgm => hsplit_chunk g hgm)
  rw [hcongr]
  simpa using hflat

/-- C1 (amended): for every non-English target, content of length at most
`MAX_CHUNK` (4500) is translated with exactly one provider call; and for
content that requires splitting, provided every paragraph of the input is
nonempty with no leading or trailing whitespace, the identity mock
translator (a length-preserving mock) yields an output with exactly as many
paragraphs as the input.  (As originally stated — for arbitrary texts — the
round-trip half fails; see the counterexample.) -/
theorem chunking_round_trip (content : List Char) (target : SupportedLanguage)
    (hlang : target ≠ SupportedLanguage.english) :
    (content.length ≤ maxChunkSize → (providerCallTexts content target).length = 1) ∧
    (maxChunkSize < content.length →
      (∀ p ∈ splitPar content, p ≠ [] ∧ strip p = p) →
      ∃ out, translateWithGoogle some content target = some out ∧
        (splitPar out).length = (splitPar content).length) := by
  constructor
  · intro hshort
    unfold providerCallTexts
    rw [if_neg hlang, if_pos hshort]
    rfl
  · intro hlong hclean
    obtain ⟨out, ho, hs⟩ := translateWithGoogle_long_id content target hlang hlong hclean
    exact ⟨out, ho, by rw [hs]⟩

/-- Witness for C1's amended theorem at a concrete input: translating a
2-character text to Urdu makes exactly one provider call. -/
theorem chunking_round_trip_witness :
    (providerCallTexts ['h', 'i'] SupportedLanguage.urdu).length = 1 :=
  (chunking_round_trip ['h', 'i'] SupportedLanguage.urdu (by decide)).1 (by decide)

end TranslationService

namespace TranslationService

theorem splitPar_replicate_a (n : Nat) :
    splitPar (List.replicate n 'a') = [List.replicate n 'a'] := by
  induction n with
  | zero => rfl
  | succ n ih =>
    rw [List.replicate_succ]
    exact splitPar_cons 'a' (List.replicate n 'a')
      (by intro h; exact absurd h.1 (by decide)) _ [] ih

theorem splitPar_replicate_a_sep (n : Nat) :
    splitPar (List.replicate n 'a' ++ ['\n', '\n']) = [List.replicate n 'a', []] := by
  induction n with
  | zero => rfl
  | succ n ih =>
    rw [List.replicate_succ, List.cons_append]
    exact splitPar_cons 'a' (List.replicate n 'a' ++ ['\n', '\n'])
      (by intro h; exact absurd h.1 (by decide)) (List.replicate n 'a') [[]] ih

theorem strip_replicate_a_sep (n : Nat) :
    strip (List.replicate (n + 1) 'a' ++ ['\n', '\n']) = List.replicate (n + 1) 'a' := by
  have hl : lstrip (List.replicate (n + 1) 'a' ++ ['\n', '\n'])
      = List.replicate (n + 1) 'a' ++ ['\n', '\n'] := by
    rw [List.replicate_succ, List.cons_append]
    simp [lstrip, List.dropWhile_cons, (by decide : pyIsSpace 'a' = false)]
  have hrev : (List.replicate (n + 1) 'a' ++ ['\n', '\n']).reverse
      = '\n' :: '\n' :: List.replicate (n + 1) 'a' := by
    rw [List.reverse_append, List.reverse_replicate]
    rfl
  have hr : rstrip (List.replicate (n + 1) 'a' ++ ['\n', '\n'])
      = List.replicate (n + 1) 'a' := by
    unfold rstrip
    rw [hrev]
    simp only [List.dropWhile_cons, (by decide : pyIsSpace '\n' = true), if_true]
    rw [List.dropWhile_replicate, if_neg (by decide : ¬pyIsSpace 'a' = true)]
    exact List.reverse_replicate (n + 1) 'a'
  rw [strip, hl, hr]

theorem buildChunks_counterexample :
    buildChunks maxChunkSize (splitPar (List.replicate 4501 'a' ++ ['\n', '\n']))
      = [List.replicate 4501 'a'] := by
  rw [splitPar_replicate_a_sep]
  have hstrip : strip (List.replicate 4501 'a' ++ sep) = List.replicate 4501 'a' :=
    strip_replicate_a_sep 4500
  have hRne : List.replicate 4501 'a' ≠ [] := by
    rw [List.replicate_succ]
    exact List.cons_ne_nil _ _
  have h1 : chunkStep maxChunkSize (([] : List (List Char)), ([] : List Char))
      (List.replicate 4501 'a') = ([], List.replicate 4501 'a' ++ sep) := by
    unfold chunkStep
    rw [if_neg (by
      simp only [List.length_replicate, List.length_nil, maxChunkSize]
      omega)]
    simp only [strip_nil]
    rw [if_true]
  have h2 : chunkStep maxChunkSize (([] : List (List Char)), List.replicate 4501 'a' ++ sep)
      ([] : List Char) = ([List.replicate 4501 'a'], [] ++ sep) := by
    unfold chunkStep
    rw [if_neg (by
      simp only [List.length_append, List.length_replicate, List.length_nil, sep,
        List.length_cons, maxChunkSize]
      omega)]
    simp only [hstrip]
    rw [if_neg hRne]
    rfl
  have hbc : buildChunks maxChunkSize [List.replicate 4501 'a', []] =
      (if strip (([List.replicate 4501 'a', []].foldl (chunkStep maxChunkSize)
          (([] : List (List Char)), ([] : List Char))).2) = []
       then ([List.replicate 4501 'a', []].foldl (chunkStep maxChunkSize) ([], [])).1
       else ([List.replicate 4501 'a', []].foldl (chunkStep maxChunkSize) ([], [])).1
         ++ [strip (([List.replicate 4501 'a', []].foldl (chunkStep maxChunkSize) ([], [])).2)]) :=
    rfl
  rw [hbc]
  rw [List.foldl_cons, h1, List.foldl_cons, h2, List.foldl_nil]
  have hsep : strip (([List.replicate 4501 'a'], ([] : List Char) ++ sep)).2 = [] := by decide
  rw [if_pos hsep]

/-- C1 counterexample: the 4503-character text `aa…a\n\n` (4501 `a`s followed
by a blank line) has two paragraphs, requires splitting, and under the
identity mock translator produces a one-paragraph output: the chunker's
`strip` drops the trailing empty paragraph, so rejoining does not preserve
the paragraph count. -/
theorem chunking_round_trip_counterexample :
    maxChunkSize < (List.replicate 4501 'a' ++ ['\n', '\n']).length ∧
    translateWithGoogle some (List.replicate 4501 'a' ++ ['\n', '\n']) SupportedLanguage.urdu
      = some (List.replicate 4501 'a') ∧
    (splitPar (List.replicate 4501 'a')).length
      ≠ (splitPar (List.replicate 4501 'a' ++ ['\n', '\n'])).length := by
  have hlen : (List.replicate 4501 'a' ++ ['\n', '\n']).length = 4503 := by
    simp only [List.length_append, List.length_replicate, List.length_cons, List.length_nil]
  refine ⟨?_, ?_, ?_⟩
  · rw [hlen]
    simp only [maxChunkSize]
    omega
  · unfold translateWithGoogle
    rw [if_neg (by decide), if_neg (by rw [hlen]; simp only [maxChunkSize]; omega)]
    rw [buildChunks_counterexample, mapTranslate_some]
    rfl
  · rw [splitPar_replicate_a, splitPar_replicate_a_sep]
    simp only [List.length_cons, List.length_nil]
    omega

end TranslationService

namespace TranslationService

/-! ## Dictionary lemmas -/

theorem dictGet_dictSet_self {α : Type} (m : List (String × α)) (k : String) (v : α) :
    dictGet (dictSet m k v) k = some v := by
  induction m with
  | nil => simp [dictSet, dictGet]
  | cons kv rest ih =>
    obtain ⟨k', v'⟩ := kv
    by_cases h : k' = k
    · subst h
      simp [dictSet, dictGet]
    · simp [dictSet, dictGet, h, ih]

theorem dictGet_eq_none_of_not_mem {α : Type} (m : List (String × α)) (k : String)
    (h : k ∉ m.map Prod.fst) : dictGet m k = none := by
  induction m with
  | nil => rfl
  | cons kv rest ih =>
    obtain ⟨k', v'⟩ := kv
    simp only [List.map_cons, List.mem_cons] at h
    push_neg at h
    have hne : k' ≠ k := fun hh => h.1 hh.symm
    simp only [dictGet, if_neg hne]
    exact ih h.2

theorem dictGet_dictDel_self {α : Type} (m : List (String × α)) (k : String)
    (hnd : (m.map Prod.fst).Nodup) : dictGet (dictDel m k) k = none := by
  induction m with
  | nil => rfl
  | cons kv rest ih =>
    obtain ⟨k', v'⟩ := kv
    simp only [List.map_cons, List.nodup_cons] at hnd
    obtain ⟨hk, hnd'⟩ := hnd
    by_cases h : k' = k
    · subst h
      simp only [dictDel, if_pos rfl]
      exact dictGet_eq_none_of_not_mem rest _ hk
    · simp only [dictDel, if_neg h, dictGet, if_neg h]
      exact ih hnd'

/-! ## Claim theorems: the service -/

/-- C6: translating to English returns the text unchanged — the source
short-circuits before the provider is ever constructed — and the list of
provider calls is empty, whatever the cache or provider behaviour. -/
theorem translate_to_english_identity (tr : List Char → Option (List Char))
    (content : List Char) :
    translateWithGoogle tr content SupportedLanguage.english = some content ∧
    providerCallTexts content SupportedLanguage.english = [] := by
  constructor
  · unfold translateWithGoogle
    rw [if_pos rfl]
  · unfold providerCallTexts
    rw [if_pos rfl]

theorem dictGet_dictSet_ne {α : Type} (m : List (String × α)) (k k' : String) (v : α)
    (h : k' ≠ k) : dictGet (dictSet m k' v) k = dictGet m k := by
  induction m with
  | nil => simp [dictSet, dictGet, h]
  | cons kv rest ih =>
    obtain ⟨k0, v0⟩ := kv
    by_cases h0 : k0 = k'
    · subst h0
      simp only [dictSet, if_pos rfl, dictGet]
      by_cases hk : k0 = k
      · exact absurd hk h
      · rw [if_neg hk, if_neg hk]
    · simp only [dictSet, if_neg h0, dictGet]
      by_cases hk : k0 = k
      · rw [if_pos hk, if_pos hk]
      · rw [if_neg hk, if_neg hk, ih]

/-- C9 (amended): preferences are an upsert on the joined key
`session_id:chapter_id`: setting preference A and then B for the same pair
makes `get` return B with B's timestamp, from any starting state; `get` on
the freshly initialised store reports absent; and a `set` whose joined key
differs leaves `get` unchanged.  Absence for a "never-set pair" holds only
up to key aliasing: distinct pairs whose joined keys coincide (colon
injection, e.g. `("a:b", "c")` and `("a", "b:c")`) share a single entry, so
a pair never passed to `set` can still report an aliasing pair's stored
preference — see the counterexample. -/
theorem preference_upsert_semantics (st : ServiceState) (now1 now2 : Nat)
    (sessionId chapterId : String) (langA langB : SupportedLanguage) :
    getUserPreference (setUserPreference (setUserPreference st now1 sessionId chapterId
        langA).2 now2 sessionId chapterId langB).2 sessionId chapterId
      = some ⟨sessionId, chapterId, langB, now2⟩ ∧
    getUserPreference emptyService sessionId chapterId = none ∧
    (∀ (sessionId' chapterId' : String) (lang : SupportedLanguage) (now : Nat),
      sessionId' ++ ":" ++ chapterId' ≠ sessionId ++ ":" ++ chapterId →
      getUserPreference (setUserPreference st now sessionId' chapterId' lang).2
          sessionId chapterId
        = getUserPreference st sessionId chapterId) := by
  refine ⟨?_, rfl, ?_⟩
  · unfold getUserPreference setUserPreference
    exact dictGet_dictSet_self _ _ _
  · intro sessionId' chapterId' lang now hkey
    unfold getUserPreference setUserPreference
    exact dictGet_dictSet_ne st.prefs _ _ _ hkey

/-- C9 counterexample: the preference key is the joined string
`session_id:chapter_id` (`f"{session_id}:{chapter_id}"`), so distinct pairs
alias.  After storing a preference for `("a:b", "c")`, `get` for the
never-set pair `("a", "b:c")` returns that stored preference instead of
reporting absent. -/
theorem preference_never_set_counterexample :
    getUserPreference (setUserPreference emptyService 5 "a:b" "c"
        SupportedLanguage.urdu).2 "a" "b:c"
      = some ⟨"a:b", "c", SupportedLanguage.urdu, 5⟩ ∧
    (("a" : String), ("b:c" : String)) ≠ (("a:b" : String), ("c" : String)) := by
  decide

end TranslationService

namespace TranslationService

/-- C3: from the freshly initialised service, translating the same
`(chapter_id, content, language)` twice (with a provider that succeeds)
yields `cached = false` and then `cached = true`, with the same translated
text both times. -/
theorem translate_chapter_idempotent (md5hex : List Char → String)
    (tr : List Char → Option (List Char)) (now1 now2 : Nat) (chapterId : String)
    (content : List Char) (lang : SupportedLanguage) (t : List Char)
    (htr : translateWithGoogle tr content lang = some t) :
    ∃ resp1 st1 resp2 st2,
      translateChapter md5hex tr emptyService now1 chapterId content lang
        = (some resp1, st1) ∧
      translateChapter md5hex tr st1 now2 chapterId content lang = (some resp2, st2) ∧
      resp1.cached = false ∧ resp2.cached = true ∧
      resp1.translated_content = t ∧ resp2.translated_content = t := by
  refine ⟨⟨chapterId, lang, t, false, now1⟩,
    ⟨[(getCacheKey chapterId lang,
       ⟨chapterId, lang, md5hex content, t, now1, now1⟩)], []⟩,
    ⟨chapterId, lang, t, true, now1⟩,
    ⟨[(getCacheKey chapterId lang,
       ⟨chapterId, lang, md5hex content, t, now1, now1⟩)], []⟩, ?_, ?_, rfl, rfl, rfl, rfl⟩
  · simp only [translateChapter, getCachedTranslation, emptyService, dictGet, htr, dictSet]
  · simp [translateChapter, getCachedTranslation, dictGet]

end TranslationService

namespace TranslationService

/-- C4: if an entry exists at `(chapter_id, language)` and `get` is called
with a (nonempty, as every real md5 hexdigest is) expected fingerprint that
differs from the stored one, the entry is deleted as a side effect and the
call reports absent — under the dict invariant of unique keys a subsequent
raw lookup misses; with no fingerprint supplied the entry is returned
unchanged, with no mutation, regardless of freshness. -/
theorem cache_get_fingerprint_validation (st : ServiceState) (chapterId : String)
    (lang : SupportedLanguage) (e : ChapterTranslation) (h : String)
    (hmem : dictGet st.cache (getCacheKey chapterId lang) = some e)
    (hne : h ≠ "") (hdiff : e.original_content_hash ≠ h) :
    getCachedTranslation st chapterId lang (some h)
        = (none, ⟨dictDel st.cache (getCacheKey chapterId lang), st.prefs⟩) ∧
    ((st.cache.map Prod.fst).Nodup →
      dictGet (dictDel st.cache (getCacheKey chapterId lang))
        (getCacheKey chapterId lang) = none) ∧
    getCachedTranslation st chapterId lang none = (some e, st) := by
  refine ⟨?_, ?_, ?_⟩
  · simp only [getCachedTranslation, hmem]
    rw [if_pos ⟨hne, hdiff⟩]
  · intro hnd
    exact dictGet_dictDel_self st.cache (getCacheKey chapterId lang) hnd
  · simp only [getCachedTranslation, hmem]

end TranslationService

namespace TranslationService

/-- C5 (amended): when the provider call fails, `translate_chapter` surfaces
the error and writes nothing: the post-state is exactly the lookup's
post-state (no `put` happens), the preference store is untouched, and the
cache is either unchanged or has merely lost the stale entry evicted by the
lookup that ran before the provider call; if no entry existed at the key,
the state is exactly unchanged.  (As originally stated — post-state always
equals pre-state — the claim fails when a stale entry is evicted; see the
counterexample.) -/
theorem translate_chapter_failure_no_write (md5hex : List Char → String)
    (tr : List Char → Option (List Char)) (st : ServiceState) (now : Nat)
    (chapterId : String) (content : List Char) (lang : SupportedLanguage)
    (hfail : (translateChapter md5hex tr st now chapterId content lang).1 = none) :
    (translateChapter md5hex tr st now chapterId content lang).2
        = (getCachedTranslation st chapterId lang (some (md5hex content))).2 ∧
    (translateChapter md5hex tr st now chapterId content lang).2.prefs = st.prefs ∧
    ((translateChapter md5hex tr st now chapterId content lang).2.cache = st.cache ∨
      (translateChapter md5hex tr st now chapterId content lang).2.cache
        = dictDel st.cache (getCacheKey chapterId lang)) ∧
    (dictGet st.cache (getCacheKey chapterId lang) = none →
      (translateChapter md5hex tr st now chapterId content lang).2 = st) := by
  cases hlu : dictGet st.cache (getCacheKey chapterId lang) with
  | none =>
    have hget : getCachedTranslation st chapterId lang (some (md5hex content)) = (none, st) := by
      simp only [getCachedTranslation, hlu]
    cases htw : translateWithGoogle tr content lang with
    | none =>
      have hcall : translateChapter md5hex tr st now chapterId content lang = (none, st) := by
        simp only [translateChapter, hget, htw]
      rw [hcall, hget]
      exact ⟨rfl, rfl, Or.inl rfl, fun _ => rfl⟩
    | some tc =>
      exfalso
      have hcall : (translateChapter md5hex tr st now chapterId content lang).1
          = some ⟨chapterId, lang, tc, false, now⟩ := by
        simp only [translateChapter, hget, htw]
      rw [hcall] at hfail
      exact Option.noConfusion hfail
  | some e =>
    by_cases hcond : md5hex content ≠ "" ∧ e.original_content_hash ≠ md5hex content
    · have hget : getCachedTranslation st chapterId lang (some (md5hex content))
          = (none, ⟨dictDel st.cache (getCacheKey chapterId lang), st.prefs⟩) := by
        simp only [getCachedTranslation, hlu]
        rw [if_pos hcond]
      cases htw : translateWithGoogle tr content lang with
      | none =>
        have hcall : translateChapter md5hex tr st now chapterId content lang
            = (none, ⟨dictDel st.cache (getCacheKey chapterId lang), st.prefs⟩) := by
          simp only [translateChapter, hget, htw]
        rw [hcall, hget]
        refine ⟨rfl, rfl, Or.inr rfl, ?_⟩
        intro hnone
        exact Option.noConfusion hnone
      | some tc =>
        exfalso
        have hcall : (translateChapter md5hex tr st now chapterId content lang).1
            = some ⟨chapterId, lang, tc, false, now⟩ := by
          simp only [translateChapter, hget, htw]
        rw [hcall] at hfail
        exact Option.noConfusion hfail
    · exfalso
      have hget : getCachedTranslation st chapterId lang (some (md5hex content))
          = (some e, st) := by
        simp only [getCachedTranslation, hlu]
        rw [if_neg hcond]
      have hcall : (translateChapter md5hex tr st now chapterId content lang).1
          = some ⟨chapterId, lang, e.translated_content, true, e.updated_at⟩ := by
        simp only [translateChapter, hget]
      rw [hcall] at hfail
      exact Option.noConfusion hfail

/-- C5 counterexample: a cache holding a stale entry for the key (stored
fingerprint `"h1"`, current content hashing to `"h2"`) and a provider that
always fails.  The call surfaces the error, yet the post-state differs from
the pre-state: the stale entry was evicted during the lookup. -/
theorem translate_chapter_failure_counterexample :
    (translateChapter (fun _ => "h2") (fun _ => none)
        ⟨[(getCacheKey "c1" SupportedLanguage.urdu,
           ⟨"c1", SupportedLanguage.urdu, "h1", ['t'], 0, 0⟩)], []⟩
        5 "c1" ['x'] SupportedLanguage.urdu).1 = none ∧
    (translateChapter (fun _ => "h2") (fun _ => none)
        ⟨[(getCacheKey "c1" SupportedLanguage.urdu,
           ⟨"c1", SupportedLanguage.urdu, "h1", ['t'], 0, 0⟩)], []⟩
        5 "c1" ['x'] SupportedLanguage.urdu).2
      ≠ ⟨[(getCacheKey "c1" SupportedLanguage.urdu,
           ⟨"c1", SupportedLanguage.urdu, "h1", ['t'], 0, 0⟩)], []⟩ := by
  decide

end TranslationService

namespace TranslationService

/-- C8 (amended): the cache write of `translate_chapter` overwrites the
entry unconditionally and sets *both* `created_at` and `updated_at` to the
current time: the creation timestamp is **not** preserved across refreshes
(after every write `created_at = updated_at = now`).  (As originally stated
— `created_at` preserved, only `updated_at` refreshed — the claim fails;
see the counterexample.) -/
theorem translate_chapter_put_resets_created_at (md5hex : List Char → String)
    (tr : List Char → Option (List Char)) (st : ServiceState) (now : Nat)
    (chapterId : String) (content : List Char) (lang : SupportedLanguage)
    (resp : TranslationResponse) (st' : ServiceState)
    (hcall : translateChapter md5hex tr st now chapterId content lang = (some resp, st'))
    (hmiss : resp.cached = false) :
    ∃ e : ChapterTranslation,
      dictGet st'.cache (getCacheKey chapterId lang) = some e ∧
      e.created_at = now ∧ e.updated_at = now ∧
      e.original_content_hash = md5hex content ∧
      e.translated_content = resp.translated_content := by
  rcases hlu : getCachedTranslation st chapterId lang (some (md5hex content)) with ⟨copt, st1⟩
  cases copt with
  | some cached =>
    have hc2 : translateChapter md5hex tr st now chapterId content lang
        = (some ⟨chapterId, lang, cached.translated_content, true, cached.updated_at⟩, st1) := by
      simp only [translateChapter, hlu]
    rw [hc2] at hcall
    injection hcall with h1 h2
    injection h1 with h1
    rw [← h1] at hmiss
    exact absurd hmiss (by simp)
  | none =>
    cases htw : translateWithGoogle tr content lang with
    | none =>
      have hc2 : translateChapter md5hex tr st now chapterId content lang = (none, st1) := by
        simp only [translateChapter, hlu, htw]
      rw [hc2] at hcall
      injection hcall with h1 h2
      exact Option.noConfusion h1
    | some tc =>
      have hc2 : translateChapter md5hex tr st now chapterId content lang
          = (some ⟨chapterId, lang, tc, false, now⟩,
             ⟨dictSet st1.cache (getCacheKey chapterId lang)
               ⟨chapterId, lang, md5hex content, tc, now, now⟩, st1.prefs⟩) := by
        simp only [translateChapter, hlu, htw]
      rw [hc2] at hcall
      injection hcall with h1 h2
      injection h1 with h1
      refine ⟨⟨chapterId, lang, md5hex content, tc, now, now⟩, ?_, rfl, rfl, rfl, ?_⟩
      · rw [← h2]
        exact dictGet_dictSet_self _ _ _
      · rw [← h1]

/-- C8 counterexample: translate chapter `"ch"` at time 10 (content `"a"`,
fingerprint `"h1"`), then re-translate the same chapter with changed content
`"b"` (fingerprint `"h2"`) at time 20.  The refreshed entry's `created_at`
is 20, not the original creation time 10: the put did not preserve
`created_at`. -/
theorem cache_put_created_at_counterexample :
    (dictGet (translateChapter (fun s => if s = ['a'] then "h1" else "h2") some
        emptyService 10 "ch" ['a'] SupportedLanguage.urdu).2.cache
        (getCacheKey "ch" SupportedLanguage.urdu)).map ChapterTranslation.created_at
      = some 10 ∧
    (dictGet (translateChapter (fun s => if s = ['a'] then "h1" else "h2") some
        (translateChapter (fun s => if s = ['a'] then "h1" else "h2") some
          emptyService 10 "ch" ['a'] SupportedLanguage.urdu).2
        20 "ch" ['b'] SupportedLanguage.urdu).2.cache
        (getCacheKey "ch" SupportedLanguage.urdu)).map ChapterTranslation.created_at
      = some 20 ∧
    (20 : Nat) ≠ 10 := by
  decide

end TranslationService

namespace TranslationService

/-- A hit of `get_cached_translation` with a nonempty expected fingerprint
implies the stored entry carries exactly that fingerprint and the state was
not mutated. -/
theorem getCachedTranslation_some (st : ServiceState) (chapterId : String)
    (lang : SupportedLanguage) (h : String) (cached : ChapterTranslation)
    (st1 : ServiceState) (hne : h ≠ "")
    (hlu : getCachedTranslation st chapterId lang (some h) = (some cached, st1)) :
    dictGet st.cache (getCacheKey chapterId lang) = some cached ∧
    st1 = st ∧ cached.original_content_hash = h := by
  simp only [getCachedTranslation] at hlu
  cases hd : dictGet st.cache (getCacheKey chapterId lang) with
  | none =>
    rw [hd] at hlu
    injection hlu with h1 h2
    exact Option.noConfusion h1
  | some e =>
    rw [hd] at hlu
    simp only [] at hlu
    by_cases hc : h ≠ "" ∧ e.original_content_hash ≠ h
    · rw [if_pos hc] at hlu
      injection hlu with h1 h2
      exact Option.noConfusion h1
    · rw [if_neg hc] at hlu
      injection hlu with h1 h2
      injection h1 with h1
      push_neg at hc
      subst h1
      exact ⟨rfl, h2.symm, hc hne⟩

/-- After any successful `translate_chapter` whose fingerprint is nonempty,
the cache holds an entry at the key whose stored fingerprint is the
fingerprint of the translated content. -/
theorem translateChapter_entry_after (md5hex : List Char → String)
    (tr : List Char → Option (List Char)) (st : ServiceState) (now : Nat)
    (chapterId : String) (content : List Char) (lang : SupportedLanguage)
    (resp : TranslationResponse) (st' : ServiceState) (hne : md5hex content ≠ "")
    (hcall : translateChapter md5hex tr st now chapterId content lang = (some resp, st')) :
    ∃ e : ChapterTranslation,
      dictGet st'.cache (getCacheKey chapterId lang) = some e ∧
      e.original_content_hash = md5hex content := by
  rcases hlu : getCachedTranslation st chapterId lang (some (md5hex content)) with ⟨copt, st1⟩
  cases copt with
  | some cached =>
    obtain ⟨hd, hst, hhash⟩ := getCachedTranslation_some st chapterId lang
      (md5hex content) cached st1 hne hlu
    have hc2 : translateChapter md5hex tr st now chapterId content lang
        = (some ⟨chapterId, lang, cached.translated_content, true, cached.updated_at⟩, st1) := by
      simp only [translateChapter, hlu]
    rw [hc2] at hcall
    injection hcall with h1 h2
    refine ⟨cached, ?_, hhash⟩
    rw [← h2, hst]
    exact hd
  | none =>
    cases htw : translateWithGoogle tr content lang with
    | none =>
      have hc2 : translateChapter md5hex tr st now chapterId content lang = (none, st1) := by
        simp only [translateChapter, hlu, htw]
      rw [hc2] at hcall
      injection hcall with h1 h2
      exact Option.noConfusion h1
    | some tc =>
      have hc2 : translateChapter md5hex tr st now chapterId content lang
          = (some ⟨chapterId, lang, tc, false, now⟩,
             ⟨dictSet st1.cache (getCacheKey chapterId lang)
               ⟨chapterId, lang, md5hex content, tc, now, now⟩, st1.prefs⟩) := by
        simp only [translateChapter, hlu, htw]
      rw [hc2] at hcall
      injection hcall with h1 h2
      refine ⟨⟨chapterId, lang, md5hex content, tc, now, now⟩, ?_, rfl⟩
      rw [← h2]
      exact dictGet_dictSet_self _ _ _

/-- C2: after a successful `translate_chapter` of `T1`, a second call for
the same chapter and language with content `T2` whose fingerprint differs
from `T1`'s does not return the cached result: if it succeeds it re-invokes
the translator and reports `cached = false` with the fresh translation.
(Fingerprints are md5 hexdigests, hence nonempty — the two nonemptiness
hypotheses encode that boundary fact about the opaque hash.) -/
theorem translate_chapter_invalidation (md5hex : List Char → String)
    (tr : List Char → Option (List Char)) (st0 : ServiceState) (now1 now2 : Nat)
    (chapterId : String) (T1 T2 : List Char) (lang : SupportedLanguage)
    (resp1 : TranslationResponse) (st1 : ServiceState)
    (h1ne : md5hex T1 ≠ "") (h2ne : md5hex T2 ≠ "")
    (hdiff : md5hex T2 ≠ md5hex T1)
    (hcall1 : translateChapter md5hex tr st0 now1 chapterId T1 lang = (some resp1, st1)) :
    ∀ (resp2 : TranslationResponse) (st2 : ServiceState),
      translateChapter md5hex tr st1 now2 chapterId T2 lang = (some resp2, st2) →
        resp2.cached = false ∧
        translateWithGoogle tr T2 lang = some resp2.translated_content := by
  intro resp2 st2 hcall2
  obtain ⟨e, he, hhash⟩ := translateChapter_entry_after md5hex tr st0 now1 chapterId T1 lang
    resp1 st1 h1ne hcall1
  have hget2 : getCachedTranslation st1 chapterId lang (some (md5hex T2))
      = (none, ⟨dictDel st1.cache (getCacheKey chapterId lang), st1.prefs⟩) := by
    simp only [getCachedTranslation, he]
    rw [if_pos ⟨h2ne, by rw [hhash]; exact fun hh => hdiff hh.symm⟩]
  cases htw : translateWithGoogle tr T2 lang with
  | none =>
    exfalso
    have hc2 : translateChapter md5hex tr st1 now2 chapterId T2 lang
        = (none, ⟨dictDel st1.cache (getCacheKey chapterId lang), st1.prefs⟩) := by
      simp only [translateChapter, hget2, htw]
    rw [hc2] at hcall2
    injection hcall2 with h1 h2
    exact Option.noConfusion h1
  | some tc =>
    have hc2 : translateChapter md5hex tr st1 now2 chapterId T2 lang
        = (some ⟨chapterId, lang, tc, false, now2⟩,
           ⟨dictSet (dictDel st1.cache (getCacheKey chapterId lang))
             (getCacheKey chapterId lang)
             ⟨chapterId, lang, md5hex T2, tc, now2, now2⟩, st1.prefs⟩) := by
      simp only [translateChapter, hget2, htw]
    rw [hc2] at hcall2
    injection hcall2 with h1 h2
    injection h1 with h1
    rw [← h1]
    exact ⟨rfl, rfl⟩

end TranslationService

namespace TranslationService

theorem isPrefixOf_append_self (l t : List Char) : l.isPrefixOf (l ++ t) = true := by
  induction l with
  | nil => simp [List.isPrefixOf]
  | cons c l' ih => simp [List.isPrefixOf, ih]

theorem isSuffixOf_append_self (a b : List Char) : b.isSuffixOf (a ++ b) = true := by
  unfold List.isSuffixOf
  rw [List.reverse_append]
  exact isPrefixOf_append_self b.reverse a.reverse

theorem takeWhile_colon_append (cid r : List Char) :
    List.takeWhile (fun c => c ≠ ':') (cid ++ ':' :: r)
      = List.takeWhile (fun c => c ≠ ':') cid := by
  induction cid with
  | nil => simp [List.takeWhile]
  | cons c cid' ih =>
    rw [List.cons_append, List.takeWhile_cons, List.takeWhile_cons]
    by_cases hc : c = ':'
    · subst hc
      rw [if_neg (by simp), if_neg (by simp)]
    · rw [if_pos (by simp [hc]), if_pos (by simp [hc]), ih]

theorem takeWhile_eq_self_of_all (p : Char → Bool) (l : List Char)
    (h : ∀ x ∈ l, p x = true) : List.takeWhile p l = l := by
  induction l with
  | nil => rfl
  | cons c l' ih =>
    rw [List.takeWhile_cons, h c (by simp), if_pos rfl]
    rw [ih (fun x hx => h x (List.mem_cons_of_mem _ hx))]

theorem getCacheKey_urdu_data (chapterId : String) :
    (getCacheKey chapterId SupportedLanguage.urdu).data
      = chapterId.data ++ ':' :: ['u', 'r', 'd', 'u'] := by
  unfold getCacheKey langValue
  rw [String.data_append, String.data_append, List.append_assoc]
  rfl

/-- C10: for every cached Urdu entry, `get_cache_stats` lists under
`chapters_with_urdu` the text of the cache key before its first `":"` —
which is the chapter id truncated at its first colon.  A chapter id
containing a colon is therefore listed as a strict prefix of itself, not as
the id; a colon-free id is listed in full. -/
theorem cache_stats_chapter_prefix (st : ServiceState) (chapterId : String)
    (e : ChapterTranslation)
    (hmem : (getCacheKey chapterId SupportedLanguage.urdu, e) ∈ st.cache) :
    pySplitHead (getCacheKey chapterId SupportedLanguage.urdu)
        ∈ (getCacheStats st).chapters_with_urdu ∧
    pySplitHead (getCacheKey chapterId SupportedLanguage.urdu)
        = ⟨chapterId.data.takeWhile (fun c => c ≠ ':')⟩ ∧
    ((':' ∈ chapterId.data) →
      pySplitHead (getCacheKey chapterId SupportedLanguage.urdu) ≠ chapterId) ∧
    ((':' ∉ chapterId.data) →
      pySplitHead (getCacheKey chapterId SupportedLanguage.urdu) = chapterId) := by
  have hhead : pySplitHead (getCacheKey chapterId SupportedLanguage.urdu)
      = ⟨chapterId.data.takeWhile (fun c => c ≠ ':')⟩ := by
    unfold pySplitHead
    rw [getCacheKey_urdu_data, takeWhile_colon_append]
  refine ⟨?_, hhead, ?_, ?_⟩
  · unfold getCacheStats
    apply List.mem_map_of_mem pySplitHead
    apply List.mem_filter.mpr
    constructor
    · exact List.mem_map_of_mem Prod.fst hmem
    · unfold pyEndsWith
      rw [getCacheKey_urdu_data]
      exact isSuffixOf_append_self chapterId.data (':' :: ['u', 'r', 'd', 'u'])
  · intro hcolon heq
    rw [hhead] at heq
    have hdata : chapterId.data.takeWhile (fun c => c ≠ ':') = chapterId.data :=
      congrArg String.data heq
    have := List.mem_takeWhile_imp (by rw [hdata]; exact hcolon)
    simp at this
  · intro hnone
    rw [hhead]
    have hdata : chapterId.data.takeWhile (fun c => c ≠ ':') = chapterId.data := by
      apply takeWhile_eq_self_of_all
      intro x hx
      simp only [ne_eq, decide_eq_true_eq]
      intro hxc
      subst hxc
      exact hnone hx
    rw [hdata]

end TranslationService

namespace TranslationService

/-- The provider language-code mapping of the source is total: no
`SupportedLanguage` value is left without a code (the `else` branch maps
everything that is not Urdu to `"en"`), so no `UnsupportedLanguage` failure
path exists in `_translate_with_google`. -/
theorem langCode_total (target : SupportedLanguage) :
    langCode target = "ur" ∨ langCode target = "en" := by
  cases target with
  | english => exact Or.inr rfl
  | urdu => exact Or.inl rfl

/-- Witness for C2's theorem at a concrete input. -/
theorem translate_chapter_invalidation_witness :
    (⟨"c", SupportedLanguage.urdu, ['b'], false, 1⟩ : TranslationResponse).cached = false ∧
    translateWithGoogle some ['b'] SupportedLanguage.urdu
      = some (⟨"c", SupportedLanguage.urdu, ['b'], false, 1⟩
          : TranslationResponse).translated_content :=
  translate_chapter_invalidation (fun s => if s = ['a'] then "h1" else "h2") some
    emptyService 0 1 "c" ['a'] ['b'] SupportedLanguage.urdu
    ⟨"c", SupportedLanguage.urdu, ['a'], false, 0⟩
    ⟨[(getCacheKey "c" SupportedLanguage.urdu,
       ⟨"c", SupportedLanguage.urdu, "h1", ['a'], 0, 0⟩)], []⟩
    (by decide) (by decide) (by decide) (by decide)
    ⟨"c", SupportedLanguage.urdu, ['b'], false, 1⟩
    ⟨[(getCacheKey "c" SupportedLanguage.urdu,
       ⟨"c", SupportedLanguage.urdu, "h2", ['b'], 1, 1⟩)], []⟩
    (by decide)

/-- Witness for C3's theorem at a concrete input. -/
theorem translate_chapter_idempotent_witness :
    ∃ (resp1 : TranslationResponse) (st1 : ServiceState) (resp2 : TranslationResponse)
      (st2 : ServiceState),
      translateChapter (fun _ => "h") some emptyService 0 "ch1" ['h', 'i']
          SupportedLanguage.urdu = (some resp1, st1) ∧
      translateChapter (fun _ => "h") some st1 1 "ch1" ['h', 'i']
          SupportedLanguage.urdu = (some resp2, st2) ∧
      resp1.cached = false ∧ resp2.cached = true ∧
      resp1.translated_content = ['h', 'i'] ∧ resp2.translated_content = ['h', 'i'] :=
  translate_chapter_idempotent (fun _ => "h") some 0 1 "ch1" ['h', 'i']
    SupportedLanguage.urdu ['h', 'i'] (by decide)

/-- Witness for C4's theorem at a concrete input. -/
theorem cache_get_fingerprint_validation_witness :
    getCachedTranslation
        ⟨[(getCacheKey "c" SupportedLanguage.urdu,
           ⟨"c", SupportedLanguage.urdu, "h1", ['t'], 0, 0⟩)], []⟩
        "c" SupportedLanguage.urdu (some "h2")
      = (none,
         ⟨dictDel [(getCacheKey "c" SupportedLanguage.urdu,
             ⟨"c", SupportedLanguage.urdu, "h1", ['t'], 0, 0⟩)]
           (getCacheKey "c" SupportedLanguage.urdu), []⟩) ∧
    (((⟨[(getCacheKey "c" SupportedLanguage.urdu,
         ⟨"c", SupportedLanguage.urdu, "h1", ['t'], 0, 0⟩)], []⟩ :
        ServiceState).cache.map Prod.fst).Nodup →
      dictGet (dictDel [(getCacheKey "c" SupportedLanguage.urdu,
          (⟨"c", SupportedLanguage.urdu, "h1", ['t'], 0, 0⟩ : ChapterTranslation))]
          (getCacheKey "c" SupportedLanguage.urdu))
        (getCacheKey "c" SupportedLanguage.urdu) = none) ∧
    getCachedTranslation
        ⟨[(getCacheKey "c" SupportedLanguage.urdu,
           ⟨"c", SupportedLanguage.urdu, "h1", ['t'], 0, 0⟩)], []⟩
        "c" SupportedLanguage.urdu none
      = (some ⟨"c", SupportedLanguage.urdu, "h1", ['t'], 0, 0⟩,
         ⟨[(getCacheKey "c" SupportedLanguage.urdu,
            ⟨"c", SupportedLanguage.urdu, "h1", ['t'], 0, 0⟩)], []⟩) :=
  cache_get_fingerprint_validation
    ⟨[(getCacheKey "c" SupportedLanguage.urdu,
       ⟨"c", SupportedLanguage.urdu, "h1", ['t'], 0, 0⟩)], []⟩
    "c" SupportedLanguage.urdu ⟨"c", SupportedLanguage.urdu, "h1", ['t'], 0, 0⟩ "h2"
    (by decide) (by decide) (by decide)

/-- Witness for C5's amended theorem at a concrete input. -/
theorem translate_chapter_failure_no_write_witness :
    (translateChapter (fun _ => "h") (fun _ => none) emptyService 0 "c" ['x']
        SupportedLanguage.urdu).2
      = (getCachedTranslation emptyService "c" SupportedLanguage.urdu (some "h")).2 ∧
    (translateChapter (fun _ => "h") (fun _ => none) emptyService 0 "c" ['x']
        SupportedLanguage.urdu).2.prefs = emptyService.prefs ∧
    ((translateChapter (fun _ => "h") (fun _ => none) emptyService 0 "c" ['x']
        SupportedLanguage.urdu).2.cache = emptyService.cache ∨
      (translateChapter (fun _ => "h") (fun _ => none) emptyService 0 "c" ['x']
        SupportedLanguage.urdu).2.cache
        = dictDel emptyService.cache (getCacheKey "c" SupportedLanguage.urdu)) ∧
    (dictGet emptyService.cache (getCacheKey "c" SupportedLanguage.urdu) = none →
      (translateChapter (fun _ => "h") (fun _ => none) emptyService 0 "c" ['x']
        SupportedLanguage.urdu).2 = emptyService) :=
  translate_chapter_failure_no_write (fun _ => "h") (fun _ => none) emptyService 0 "c"
    ['x'] SupportedLanguage.urdu (by decide)

/-- Witness for C8's amended theorem at a concrete input. -/
theorem translate_chapter_put_resets_created_at_witness :
    ∃ e : ChapterTranslation,
      dictGet (⟨[(getCacheKey "c" SupportedLanguage.urdu,
          ⟨"c", SupportedLanguage.urdu, "h", ['a'], 7, 7⟩)], []⟩ :
          ServiceState).cache
        (getCacheKey "c" SupportedLanguage.urdu) = some e ∧
      e.created_at = 7 ∧ e.updated_at = 7 ∧
      e.original_content_hash = "h" ∧
      e.translated_content = (⟨"c", SupportedLanguage.urdu, ['a'], false, 7⟩
        : TranslationResponse).translated_content :=
  translate_chapter_put_resets_created_at (fun _ => "h") some emptyService 7 "c" ['a']
    SupportedLanguage.urdu ⟨"c", SupportedLanguage.urdu, ['a'], false, 7⟩
    ⟨[(getCacheKey "c" SupportedLanguage.urdu,
       ⟨"c", SupportedLanguage.urdu, "h", ['a'], 7, 7⟩)], []⟩
    (by decide) rfl

/-- Witness for C9's amended theorem at a concrete input: last write wins
for `("s", "c")`, and a set for the non-aliasing pair `("x", "y")` leaves
`get ("s", "c")` unchanged. -/
theorem preference_upsert_semantics_witness :
    getUserPreference (setUserPreference (setUserPreference emptyService 0 "s" "c"
        SupportedLanguage.english).2 1 "s" "c" SupportedLanguage.urdu).2 "s" "c"
      = some ⟨"s", "c", SupportedLanguage.urdu, 1⟩ ∧
    getUserPreference (setUserPreference emptyService 3 "x" "y"
        SupportedLanguage.urdu).2 "s" "c" = getUserPreference emptyService "s" "c" :=
  have h := preference_upsert_semantics emptyService 0 1 "s" "c"
    SupportedLanguage.english SupportedLanguage.urdu
  ⟨h.1, h.2.2 "x" "y" SupportedLanguage.urdu 3 (by decide)⟩

/-- Witness for C10's theorem at a concrete input: chapter id `"bk:ch1"` is
listed as `"bk"`. -/
theorem cache_stats_chapter_prefix_witness :
    pySplitHead (getCacheKey "bk:ch1" SupportedLanguage.urdu)
        ∈ (getCacheStats ⟨[(getCacheKey "bk:ch1" SupportedLanguage.urdu,
            ⟨"bk:ch1", SupportedLanguage.urdu, "h", ['x'], 0, 0⟩)], []⟩).chapters_with_urdu ∧
    pySplitHead (getCacheKey "bk:ch1" SupportedLanguage.urdu) ≠ "bk:ch1" :=
  have h := cache_stats_chapter_prefix
    ⟨[(getCacheKey "bk:ch1" SupportedLanguage.urdu,
       ⟨"bk:ch1", SupportedLanguage.urdu, "h", ['x'], 0, 0⟩)], []⟩
    "bk:ch1" ⟨"bk:ch1", SupportedLanguage.urdu, "h", ['x'], 0, 0⟩ (by decide)
  ⟨h.1, h.2.2.1 (by decide)⟩

end TranslationService
